import Mathlib

/-!
Verification of the inventory system in `src/clean_inventory_system.py`.

The program keeps a global Python dict `stock_data : Dict[str, int]` mapping
item names to quantities, with operations `add_item`, `remove_item`,
`get_qty`, `check_low_items`, `print_data`, and JSON persistence via
`load_data` / `save_data`.

Embedding conventions:
* the dict is modelled as an insertion-ordered association list
  (`Ledger`); Python dict assignment updates an existing key in place and
  appends a fresh key at the end, which `setKey` mirrors;
* Python exceptions raised by an operation are modelled by returning the
  error alongside the ledger as it stood when the exception was raised
  (`Option InvErr × Ledger`), so that claims about state preservation on
  failure are expressible; pure reads return `Except InvErr _`;
* Python `int` is unbounded, so quantities are `Int`;
* the `isinstance` checks of the source are satisfied by the Lean types
  themselves; the remaining value checks are translated literally.
-/

/-- The stock ledger: the global `stock_data` dict, as an insertion-ordered
association list from item name to quantity. -/
abbrev Ledger := List (String × Int)

/-- Error taxonomy of the operations, following the spec's names.
`invalidArgument` covers the `TypeError`/`ValueError` raised on malformed
input (empty item, wrong-signed quantity, negative threshold), `notFound`
the `KeyError` of `remove_item`, and `insufficientStock` the `ValueError`
raised when more stock is requested than is available. -/
inductive InvErr where
  | invalidArgument
  | notFound
  | insufficientStock
deriving DecidableEq

/-- Python `stock_data.get(item, none)`: the first binding of `item`, if any. -/
def lookup : Ledger → String → Option Int
  | [], _ => none
  | (k, v) :: rest, item => if k = item then some v else lookup rest item

/-- Python dict assignment `d[k] = v`: update the existing binding in
place, else append the new binding at the end (insertion order). -/
def setKey : Ledger → String → Int → Ledger
  | [], k, v => [(k, v)]
  | (k', v') :: rest, k, v =>
      if k' = k then (k, v) :: rest else (k', v') :: setKey rest k v

/-- Python `del d[k]`: drop the binding of `k`.  Dict keys are unique, so
dropping every binding of `k` agrees with the source on reachable states. -/
def eraseKey : Ledger → String → Ledger
  | [], _ => []
  | (k', v') :: rest, k =>
      if k' = k then eraseKey rest k else (k', v') :: eraseKey rest k

/-- Source `add_item(item, qty)` (lines 17-33): reject an empty item or a negative
quantity, otherwise set `stock_data[item]` to its previous value (0 when
absent) plus `qty`.  The audit-log side effects are not modelled.  On an
exception the ledger is returned untouched, as nothing was mutated yet. -/
def add_item (item : String) (qty : Int) (s : Ledger) : Option InvErr × Ledger :=
  if item = "" then (some .invalidArgument, s)
  else if qty < 0 then (some .invalidArgument, s)
  else (none, setKey s item ((lookup s item).getD 0 + qty))

/-- Source `remove_item(item, qty)` (lines 36-54): reject an empty item or a
non-positive quantity, then a missing item, then a quantity exceeding the
stock; otherwise decrement, and delete the entry when it reaches zero. -/
def remove_item (item : String) (qty : Int) (s : Ledger) : Option InvErr × Ledger :=
  if item = "" then (some .invalidArgument, s)
  else if qty ≤ 0 then (some .invalidArgument, s)
  else
    match lookup s item with
    | none => (some .notFound, s)
    | some q =>
        if q < qty then (some .insufficientStock, s)
        else
          let s1 := setKey s item (q - qty)
          if (lookup s1 item).getD 0 = 0 then (none, eraseKey s1 item)
          else (none, s1)

/-- Source `get_qty(item)` (lines 57-61): reject an empty item, else return the
stored quantity, defaulting to 0.  A pure read: no state is threaded. -/
def get_qty (item : String) (s : Ledger) : Except InvErr Int :=
  if item = "" then .error .invalidArgument
  else .ok ((lookup s item).getD 0)

/-- Source `check_low_items(threshold)` (lines 113-117): reject a negative
threshold, else list the names of items with quantity strictly below it,
in ledger order. -/
def check_low_items (threshold : Int) (s : Ledger) : Except InvErr (List String) :=
  if threshold < 0 then .error .invalidArgument
  else .ok ((s.filter (fun p => p.2 < threshold)).map Prod.fst)

/-- Source `check_low_items()` with its default argument `threshold = 5`. -/
def check_low_items_default (s : Ledger) : Except InvErr (List String) :=
  check_low_items 5 s

/-! ### Association-list lemmas -/

theorem lookup_setKey_self (s : Ledger) (k : String) (v : Int) :
    lookup (setKey s k v) k = some v := by
  induction s with
  | nil => simp [setKey, lookup]
  | cons p rest ih =>
      obtain ⟨k', v'⟩ := p
      by_cases h : k' = k <;> simp [setKey, lookup, h, ih]

theorem lookup_setKey_ne (s : Ledger) (k k' : String) (v : Int) (h : k' ≠ k) :
    lookup (setKey s k v) k' = lookup s k' := by
  induction s with
  | nil => simp [setKey, lookup, Ne.symm h]
  | cons p rest ih =>
      obtain ⟨k0, v0⟩ := p
      by_cases h0 : k0 = k
      · subst h0
        simp [setKey, lookup, Ne.symm h]
      · simp [setKey, lookup, h0, ih]

theorem lookup_eraseKey_self (s : Ledger) (k : String) :
    lookup (eraseKey s k) k = none := by
  induction s with
  | nil => simp [eraseKey, lookup]
  | cons p rest ih =>
      obtain ⟨k', v'⟩ := p
      by_cases h : k' = k <;> simp [eraseKey, lookup, h, ih]

theorem not_mem_keys_eraseKey (s : Ledger) (k : String) :
    k ∉ (eraseKey s k).map Prod.fst := by
  induction s with
  | nil => simp [eraseKey]
  | cons p rest ih =>
      obtain ⟨k', v'⟩ := p
      by_cases h : k' = k
      · simpa [eraseKey, h] using ih
      · simp [eraseKey, h, ih, Ne.symm h]

theorem mem_setKey (s : Ledger) (k : String) (v : Int) (p : String × Int)
    (hp : p ∈ setKey s k v) : p = (k, v) ∨ p ∈ s := by
  induction s with
  | nil => simpa [setKey] using hp
  | cons q rest ih =>
      obtain ⟨k0, v0⟩ := q
      by_cases h : k0 = k
      · rcases (by simpa [setKey, h] using hp : p = (k, v) ∨ p ∈ rest) with h1 | h1
        · exact Or.inl h1
        · exact Or.inr (List.mem_cons_of_mem _ h1)
      · rcases (by simpa [setKey, h] using hp : p = (k0, v0) ∨ p ∈ setKey rest k v) with h1 | h1
        · exact Or.inr (by simp [h1])
        · rcases ih h1 with h2 | h2
          · exact Or.inl h2
          · exact Or.inr (List.mem_cons_of_mem _ h2)

theorem mem_eraseKey (s : Ledger) (k : String) (p : String × Int)
    (hp : p ∈ eraseKey s k) : p ∈ s := by
  induction s with
  | nil => simp [eraseKey] at hp
  | cons q rest ih =>
      obtain ⟨k0, v0⟩ := q
      by_cases h : k0 = k
      · exact List.mem_cons_of_mem _ (ih (by simpa [eraseKey, h] using hp))
      · rcases (by simpa [eraseKey, h] using hp : p = (k0, v0) ∨ p ∈ eraseKey rest k) with h1 | h1
        · simp [h1]
        · exact List.mem_cons_of_mem _ (ih h1)

theorem lookup_mem (s : Ledger) (k : String) (q : Int) (h : lookup s k = some q) :
    (k, q) ∈ s := by
  induction s with
  | nil => simp [lookup] at h
  | cons p rest ih =>
      obtain ⟨k0, v0⟩ := p
      by_cases h0 : k0 = k
      · subst h0
        simp [lookup] at h
        simp [h]
      · exact List.mem_cons_of_mem _ (ih (by simpa [lookup, h0] using h))

/-! ### Claims about the mutation and query operations -/

/-- C1: for every non-empty item name and every qty >= 0, add_item succeeds
and afterwards get_qty reports the prior value plus exactly qty (the entry
is created if it was absent). -/
theorem add_item_increments (s : Ledger) (item : String) (qty prior : Int)
    (hItem : item ≠ "") (hQty : 0 ≤ qty) (hPrior : get_qty item s = .ok prior) :
    (add_item item qty s).1 = none ∧
    get_qty item (add_item item qty s).2 = .ok (prior + qty) := by
  unfold get_qty at hPrior
  rw [if_neg hItem] at hPrior
  simp only [Except.ok.injEq] at hPrior
  unfold add_item get_qty
  rw [if_neg hItem, if_neg (not_lt.mpr hQty)]
  simp [lookup_setKey_self, hPrior, if_neg hItem]

theorem add_item_increments_witness :
    (add_item "apple" 10 []).1 = none ∧
    get_qty "apple" (add_item "apple" 10 []).2 = .ok (0 + 10) :=
  add_item_increments [] "apple" 10 0 (by decide) (by decide) (by rfl)

/-- C2: for an item present with quantity q > 0 and 0 < qty <= q,
remove_item succeeds, get_qty afterwards reports q - qty, and when
q - qty = 0 the entry is deleted: lookup finds nothing, the item is gone
from the key enumeration, and it appears in no check_low_items listing. -/
theorem remove_item_decrements (s : Ledger) (item : String) (q qty : Int)
    (hItem : item ≠ "") (hq : lookup s item = some q) (_hq0 : 0 < q)
    (h1 : 0 < qty) (h2 : qty ≤ q) :
    (remove_item item qty s).1 = none ∧
    get_qty item (remove_item item qty s).2 = .ok (q - qty) ∧
    (q - qty = 0 →
      lookup (remove_item item qty s).2 item = none ∧
      item ∉ (remove_item item qty s).2.map Prod.fst ∧
      ∀ t names, check_low_items t (remove_item item qty s).2 = .ok names →
        item ∉ names) := by
  unfold remove_item
  rw [if_neg hItem, if_neg (not_le.mpr h1), hq]
  dsimp only
  rw [if_neg (not_lt.mpr h2)]
  simp only [lookup_setKey_self, Option.getD_some]
  by_cases hz : q - qty = 0
  · rw [if_pos hz]
    refine ⟨rfl, ?_, ?_⟩
    · unfold get_qty
      rw [if_neg hItem]
      simp [lookup_eraseKey_self, hz]
    · intro _
      refine ⟨lookup_eraseKey_self _ _, not_mem_keys_eraseKey _ _, ?_⟩
      intro t names hnames hmem
      unfold check_low_items at hnames
      by_cases ht : t < 0
      · simp [ht] at hnames
      · rw [if_neg ht] at hnames
        simp only [Except.ok.injEq] at hnames
        subst hnames
        rcases List.mem_map.mp hmem with ⟨p, hpf, hpe⟩
        have hpmem := List.mem_of_mem_filter hpf
        exact not_mem_keys_eraseKey _ _
          (hpe ▸ List.mem_map_of_mem Prod.fst hpmem)
  · rw [if_neg hz]
    refine ⟨rfl, ?_, fun h => absurd h hz⟩
    unfold get_qty
    rw [if_neg hItem]
    simp [lookup_setKey_self]

theorem remove_item_decrements_witness :
    (remove_item "apple" 15 [("apple", 15)]).1 = none ∧
    get_qty "apple" (remove_item "apple" 15 [("apple", 15)]).2 = .ok (15 - 15) ∧
    lookup (remove_item "apple" 15 [("apple", 15)]).2 "apple" = none ∧
    "apple" ∉ (remove_item "apple" 15 [("apple", 15)]).2.map Prod.fst := by
  have h := remove_item_decrements [("apple", 15)] "apple" 15 15
    (by decide) (by rfl) (by decide) (by decide) (by decide)
  exact ⟨h.1, h.2.1, (h.2.2 (by decide)).1, (h.2.2 (by decide)).2.1⟩

/-- C4: complete characterization of remove_item's error behaviour:
invalidArgument exactly on empty item or qty <= 0; otherwise notFound
exactly when the item has no entry; otherwise insufficientStock exactly
when qty exceeds the stored quantity; otherwise success. -/
theorem remove_item_error_cases (s : Ledger) (item : String) (qty : Int) :
    ((remove_item item qty s).1 = some .invalidArgument ↔
      (item = "" ∨ qty ≤ 0)) ∧
    (item ≠ "" → 0 < qty →
      ((remove_item item qty s).1 = some .notFound ↔ lookup s item = none)) ∧
    (item ≠ "" → 0 < qty → ∀ q, lookup s item = some q →
      ((remove_item item qty s).1 = some .insufficientStock ↔ q < qty)) ∧
    (item ≠ "" → 0 < qty → ∀ q, lookup s item = some q → qty ≤ q →
      (remove_item item qty s).1 = none) := by
  refine ⟨?_, ?_, ?_, ?_⟩
  · unfold remove_item
    by_cases hI : item = ""
    · simp [hI]
    · by_cases hQ : qty ≤ 0
      · simp [hI, hQ]
      · rw [if_neg hI, if_neg hQ]
        cases hL : lookup s item with
        | none => simp [hI, hQ]
        | some q =>
            dsimp only
            by_cases hlt : q < qty
            · simp [hlt, hI, hQ]
            · rw [if_neg hlt]
              simp only [hI, hQ, or_self, iff_false]
              split <;> simp
  · intro hI hQ
    unfold remove_item
    rw [if_neg hI, if_neg (not_le.mpr hQ)]
    cases hL : lookup s item with
    | none => simp
    | some q =>
        dsimp only
        by_cases hlt : q < qty
        · simp [hlt]
        · rw [if_neg hlt]
          simp only [iff_false, reduceCtorEq]
          split <;> simp
  · intro hI hQ q hL
    unfold remove_item
    rw [if_neg hI, if_neg (not_le.mpr hQ), hL]
    dsimp only
    by_cases hlt : q < qty
    · simp [hlt]
    · rw [if_neg hlt]
      simp only [hlt, iff_false]
      split <;> simp
  · intro hI hQ q hL hle
    unfold remove_item
    rw [if_neg hI, if_neg (not_le.mpr hQ), hL]
    dsimp only
    rw [if_neg (not_lt.mpr hle)]
    split <;> rfl

theorem remove_item_error_cases_witness :
    (remove_item "" 1 []).1 = some .invalidArgument ∧
    (remove_item "a" 1 []).1 = some .notFound ∧
    (remove_item "a" 2 [("a", 1)]).1 = some .insufficientStock ∧
    (remove_item "a" 1 [("a", 1)]).1 = none :=
  ⟨(remove_item_error_cases [] "" 1).1.mpr (Or.inl rfl),
   ((remove_item_error_cases [] "a" 1).2.1 (by decide) (by decide)).mpr rfl,
   ((remove_item_error_cases [("a", 1)] "a" 2).2.2.1 (by decide) (by decide)
      1 rfl).mpr (by decide),
   (remove_item_error_cases [("a", 1)] "a" 1).2.2.2 (by decide) (by decide)
      1 rfl (by decide)⟩

/-- C5: malformed input to each core operation — empty item name, negative
qty for add_item, non-positive qty for remove_item, empty item for
get_qty, negative threshold for check_low_items — is rejected with
invalidArgument, surfaced to the caller rather than silently ignored. -/
theorem invalid_argument_surfaced (s : Ledger) (item : String) (qty t : Int) :
    (add_item "" qty s).1 = some .invalidArgument ∧
    (qty < 0 → (add_item item qty s).1 = some .invalidArgument) ∧
    (remove_item "" qty s).1 = some .invalidArgument ∧
    (qty ≤ 0 → (remove_item item qty s).1 = some .invalidArgument) ∧
    get_qty "" s = .error .invalidArgument ∧
    (t < 0 → check_low_items t s = .error .invalidArgument) := by
  refine ⟨rfl, ?_, rfl, ?_, rfl, ?_⟩
  · intro h
    unfold add_item
    split
    · rfl
    · simp [h]
  · intro h
    unfold remove_item
    split
    · rfl
    · simp [h]
  · intro h
    unfold check_low_items
    rw [if_pos h]

theorem invalid_argument_surfaced_witness :
    (add_item "" 1 []).1 = some .invalidArgument ∧
    (add_item "x" (-1) []).1 = some .invalidArgument ∧
    (remove_item "" 1 []).1 = some .invalidArgument ∧
    (remove_item "x" 0 []).1 = some .invalidArgument ∧
    get_qty "" [] = .error .invalidArgument ∧
    check_low_items (-1) [] = .error .invalidArgument := by
  have h := invalid_argument_surfaced [] "x" (-1) (-1)
  have h0 := invalid_argument_surfaced [] "x" 0 (-1)
  exact ⟨h.1, h.2.1 (by decide), h.2.2.1, h0.2.2.2.1 (by decide), h.2.2.2.2.1,
    h.2.2.2.2.2 (by decide)⟩

/-- C9: for every threshold >= 0, check_low_items succeeds and returns
exactly the names of items with quantity strictly below the threshold (in
ledger order), the unspecified-threshold form uses 5, and on the ledger
containing apple=3 and banana=10 the default call returns exactly apple. -/
theorem check_low_items_spec (s : Ledger) (t : Int) (ht : 0 ≤ t) :
    check_low_items t s = .ok ((s.filter (fun p => p.2 < t)).map Prod.fst) ∧
    (∀ name, name ∈ (s.filter (fun p => p.2 < t)).map Prod.fst ↔
      ∃ q, (name, q) ∈ s ∧ q < t) ∧
    check_low_items_default s = check_low_items 5 s ∧
    check_low_items_default [("apple", 3), ("banana", 10)] = .ok ["apple"] := by
  refine ⟨?_, ?_, rfl, by rfl⟩
  · unfold check_low_items
    rw [if_neg (not_lt.mpr ht)]
  · intro name
    constructor
    · intro hmem
      rcases List.mem_map.mp hmem with ⟨p, hpf, hpe⟩
      rcases List.mem_filter.mp hpf with ⟨hps, hplt⟩
      exact ⟨p.2, by rw [← hpe]; exact hps, by simpa using hplt⟩
    · rintro ⟨q, hqs, hqlt⟩
      exact List.mem_map_of_mem Prod.fst
        (List.mem_filter.mpr ⟨hqs, by simpa using hqlt⟩)

theorem check_low_items_spec_witness :
    check_low_items 5 [("apple", 3), ("banana", 10)] =
      .ok (([("apple", (3 : Int)), ("banana", 10)].filter
        (fun p => p.2 < 5)).map Prod.fst) ∧
    check_low_items_default [("apple", 3), ("banana", 10)] = .ok ["apple"] := by
  have h := check_low_items_spec [("apple", 3), ("banana", 10)] 5 (by decide)
  exact ⟨h.1, h.2.2.2⟩

/-- C10: whenever add_item or remove_item fails with any error, the ledger
is returned exactly as it was: every validation and stock check happens
before any mutation. -/
theorem failed_mutation_preserves_state (s : Ledger) (item : String)
    (qty : Int) (e : InvErr) :
    ((add_item item qty s).1 = some e → (add_item item qty s).2 = s) ∧
    ((remove_item item qty s).1 = some e → (remove_item item qty s).2 = s) := by
  constructor
  · intro h
    by_cases hI : item = ""
    · simp [add_item, hI]
    · by_cases hQ : qty < 0
      · simp [add_item, hI, hQ]
      · simp [add_item, hI, hQ] at h
  · intro h
    by_cases hI : item = ""
    · simp [remove_item, hI]
    · by_cases hQ : qty ≤ 0
      · simp [remove_item, hI, hQ]
      · cases hL : lookup s item with
        | none => simp [remove_item, hI, hQ, hL]
        | some q =>
            by_cases hlt : q < qty
            · simp [remove_item, hI, hQ, hL, hlt]
            · exfalso
              unfold remove_item at h
              rw [if_neg hI, if_neg hQ, hL] at h
              dsimp only at h
              rw [if_neg hlt] at h
              split at h <;> simp at h

theorem failed_mutation_preserves_state_witness :
    (add_item "" 1 [("a", 2)]).2 = [("a", 2)] ∧
    (remove_item "b" 1 [("a", 2)]).2 = [("a", 2)] :=
  ⟨(failed_mutation_preserves_state [("a", 2)] "" 1 .invalidArgument).1
      (by decide),
   (failed_mutation_preserves_state [("a", 2)] "b" 1 .notFound).2 (by decide)⟩

/-! ### JSON persistence layer

`load_data` (lines 64-92) reads the file text, parses it with `json.load`,
and cleans the parsed object; `save_data` (lines 95-103) serializes the
ledger with `json.dump(stock_data, f, indent=2)`.  The file system is
modelled as `Option String`: `none` is a missing file
(`FileNotFoundError`), `some text` the file's contents.

The parser below models Python's `json` module on the fragment the
program can encounter, with these documented simplifications: JSON
numbers are integers only (a fraction or exponent part, which Python
parses as a float, is treated as a parse error), and `\uXXXX` escapes for
surrogate code points are rejected rather than paired.  No persisted file
produced by `save_data` and no input in the claims contains either form.
Python object keys parsed from a JSON text are always strings; duplicate
keys are collapsed by `cleanLoop` exactly as Python's dict does
end-to-end (first occurrence's position, last occurrence's value). -/

/-- JSON values as Python's json module produces them (numbers restricted
to integers, see above).  An object carries its key/value pairs in source
order. -/
inductive Json where
  | jnull
  | jbool (b : Bool)
  | jint (n : Int)
  | jstr (s : String)
  | jarr (elems : List Json)
  | jobj (pairs : List (String × Json))

/-- Whether a Json value is an object (`isinstance(data, dict)`). -/
def Json.isObj : Json → Bool
  | .jobj _ => true
  | _ => false

/-- All-digit, nonempty run of decimal digits, as a value.  Models the
digit strings Python's `int(str)` accepts (whitespace and underscore
tolerance of `int()` is not modelled; no claim exercises it). -/
def digitsOf (cs : List Char) : Option Nat :=
  if cs = [] then none
  else if cs.all Char.isDigit then
    some (cs.foldl (fun a c => 10 * a + (c.toNat - 48)) 0)
  else none

/-- Python `int(s)` on a string. -/
def strToInt (s : String) : Option Int :=
  match s.data with
  | '-' :: rest => (digitsOf rest).map (fun n => -(n : Int))
  | '+' :: rest => (digitsOf rest).map (fun n => (n : Int))
  | cs => (digitsOf cs).map (fun n => (n : Int))

/-- Python `int(v)` as applied by load_data (line 79): identity on ints,
True/False become 1/0, numeric strings are parsed, everything else raises
(`TypeError`/`ValueError`), modelled as `none`. -/
def coerceInt : Json → Option Int
  | .jint n => some n
  | .jbool b => some (if b then 1 else 0)
  | .jstr s => strToInt s
  | _ => none

/-- The cleaning loop of load_data (lines 73-81): values `int()` rejects
are skipped; `cleaned[k] = int(v)` is dict insert-or-update.  The
non-string-key check of line 75 has no representation here because JSON
object keys are always strings (see the claim about that branch). -/
def cleanLoop (acc : Ledger) : List (String × Json) → Ledger
  | [] => acc
  | (k, v) :: rest =>
      match coerceInt v with
      | some n => cleanLoop (setKey acc k n) rest
      | none => cleanLoop acc rest

/-- JSON whitespace, as in Python's json module. -/
def isWsChar (c : Char) : Bool :=
  c = ' ' || c = '\t' || c = '\n' || c = '\r'

/-- Drop leading JSON whitespace. -/
def skipWs : List Char → List Char
  | [] => []
  | c :: cs => if isWsChar c then skipWs cs else c :: cs

/-- Value of a hexadecimal digit. -/
def fromHexDigit (c : Char) : Option Nat :=
  if '0' ≤ c ∧ c ≤ '9' then some (c.toNat - 48)
  else if 'a' ≤ c ∧ c ≤ 'f' then some (c.toNat - 87)
  else if 'A' ≤ c ∧ c ≤ 'F' then some (c.toNat - 55)
  else none

/-- Prepend a character to the content of a string-parse result. -/
def consCh (c : Char) (r : Option (List Char × List Char)) :
    Option (List Char × List Char) :=
  r.map (fun p => (c :: p.1, p.2))

/-- Parse the body of a JSON string after the opening quote, returning the
content and the remainder after the closing quote.  Escapes follow
Python's json module (strict mode: raw control characters are rejected);
`\uXXXX` for a surrogate code point is rejected (see the header note). -/
def strLoop : List Char → Option (List Char × List Char)
  | [] => none
  | c :: cs =>
    if c = '"' then some ([], cs)
    else if c = '\\' then
      match cs with
      | [] => none
      | e :: cs2 =>
        if e = '"' then consCh '"' (strLoop cs2)
        else if e = '\\' then consCh '\\' (strLoop cs2)
        else if e = '/' then consCh '/' (strLoop cs2)
        else if e = 'b' then consCh '\x08' (strLoop cs2)
        else if e = 'f' then consCh '\x0c' (strLoop cs2)
        else if e = 'n' then consCh '\n' (strLoop cs2)
        else if e = 'r' then consCh '\r' (strLoop cs2)
        else if e = 't' then consCh '\t' (strLoop cs2)
        else if e = 'u' then
          match cs2 with
          | h1 :: h2 :: h3 :: h4 :: cs3 =>
            match fromHexDigit h1, fromHexDigit h2, fromHexDigit h3, fromHexDigit h4 with
            | some a, some b, some c1, some d =>
                let n := ((a * 16 + b) * 16 + c1) * 16 + d
                if n < 0xd800 ∨ 0xe000 ≤ n then consCh (Char.ofNat n) (strLoop cs3)
                else none
            | _, _, _, _ => none
          | _ => none
        else none
    else if c.toNat < 0x20 then none
    else consCh c (strLoop cs)

/-- Scan a run of digits left to right, accumulating the value. -/
def scanDigits (acc : Nat) : List Char → Nat × List Char
  | [] => (acc, [])
  | c :: cs => if c.isDigit then scanDigits (10 * acc + (c.toNat - 48)) cs else (acc, c :: cs)

/-- Parse a JSON natural-number literal: `0`, or a nonzero digit followed
by digits (leading zeros stop the scan, as in Python's json regex). -/
def parseNum : List Char → Option (Nat × List Char)
  | [] => none
  | c :: cs =>
      if c = '0' then some (0, cs)
      else if c.isDigit then some (scanDigits (c.toNat - 48) cs)
      else none

/-- Parse a JSON integer literal with optional minus sign. -/
def parseIntLit : List Char → Option (Int × List Char)
  | [] => none
  | c :: cs =>
      if c = '-' then (parseNum cs).map (fun p => (-(p.1 : Int), p.2))
      else (parseNum (c :: cs)).map (fun p => ((p.1 : Int), p.2))

mutual

/-- Parse a JSON value (Python `json.load`'s grammar on the fragment
described in the header note).  Fuel decreases at each nested call; the
top-level entry point supplies more fuel than any text can consume. -/
def parseValue : Nat → List Char → Option (Json × List Char)
  | 0, _ => none
  | fuel + 1, cs0 =>
    match skipWs cs0 with
    | [] => none
    | c :: rest =>
      if c = '\x7b' then
        match skipWs rest with
        | [] => none
        | c2 :: rest2 =>
            if c2 = '\x7d' then some (.jobj [], rest2)
            else (parseMembers fuel (c2 :: rest2)).map (fun p => (.jobj p.1, p.2))
      else if c = '[' then
        match skipWs rest with
        | [] => none
        | c2 :: rest2 =>
            if c2 = ']' then some (.jarr [], rest2)
            else (parseElems fuel (c2 :: rest2)).map (fun p => (.jarr p.1, p.2))
      else if c = '"' then
        (strLoop rest).map (fun p => (.jstr (String.mk p.1), p.2))
      else if c = 't' then
        match rest with
        | 'r' :: 'u' :: 'e' :: rest2 => some (.jbool true, rest2)
        | _ => none
      else if c = 'f' then
        match rest with
        | 'a' :: 'l' :: 's' :: 'e' :: rest2 => some (.jbool false, rest2)
        | _ => none
      else if c = 'n' then
        match rest with
        | 'u' :: 'l' :: 'l' :: rest2 => some (.jnull, rest2)
        | _ => none
      else
        (parseIntLit (c :: rest)).map (fun p => (.jint p.1, p.2))

/-- Parse one or more `"key": value` members of an object, ending at `}`. -/
def parseMembers : Nat → List Char → Option (List (String × Json) × List Char)
  | 0, _ => none
  | fuel + 1, cs =>
    match cs with
    | [] => none
    | c :: rest =>
      if c = '"' then
        match strLoop rest with
        | none => none
        | some (key, rest1) =>
          match skipWs rest1 with
          | [] => none
          | c1 :: rest2 =>
            if c1 = ':' then
              match parseValue fuel rest2 with
              | none => none
              | some (v, rest3) =>
                match skipWs rest3 with
                | [] => none
                | c2 :: rest4 =>
                    if c2 = ',' then
                      (parseMembers fuel (skipWs rest4)).map
                        (fun p => ((String.mk key, v) :: p.1, p.2))
                    else if c2 = '\x7d' then some ([(String.mk key, v)], rest4)
                    else none
            else none
      else none

/-- Parse one or more array elements, ending at `]`. -/
def parseElems : Nat → List Char → Option (List Json × List Char)
  | 0, _ => none
  | fuel + 1, cs =>
    match parseValue fuel cs with
    | none => none
    | some (v, rest) =>
      match skipWs rest with
      | [] => none
      | c :: rest2 =>
          if c = ',' then (parseElems fuel rest2).map (fun p => (v :: p.1, p.2))
          else if c = ']' then some ([v], rest2)
          else none

end

/-- Python `json.load` on the file text: parse one value, allow trailing
whitespace only ("Extra data" is an error). -/
def parse_json (s : String) : Option Json :=
  match parseValue (s.length + 1) s.data with
  | none => none
  | some (j, rest) => if skipWs rest = [] then some j else none

/-- Source `load_data(file)` (lines 64-92).  A missing file, a text `json.load`
rejects, and a parsed value that is not an object all reset the ledger to
empty (the warning/error is logged, no exception escapes); otherwise the
cleaned object becomes the new ledger. -/
def load_data (file : Option String) : Ledger :=
  match file with
  | none => []
  | some text =>
    match parse_json text with
    | some (.jobj pairs) => cleanLoop [] pairs
    | _ => []

/-- Hexadecimal digit character (lowercase, as Python's json emits). -/
def toHexDigit (n : Nat) : Char :=
  if n < 10 then Char.ofNat (48 + n) else Char.ofNat (87 + n)

/-- Escape one character as Python's json encoder does, except that
printable non-ASCII characters are left unescaped where Python's default
`ensure_ascii=True` would emit `\uXXXX`; both spellings denote the same
JSON string value and re-parse identically, so the round-trip behaviour
is unaffected. -/
def escChar (c : Char) : List Char :=
  if c = '\\' then ['\\', '\\']
  else if c = '"' then ['\\', '"']
  else if c = '\x08' then ['\\', 'b']
  else if c = '\x0c' then ['\\', 'f']
  else if c = '\n' then ['\\', 'n']
  else if c = '\r' then ['\\', 'r']
  else if c = '\t' then ['\\', 't']
  else if c.toNat < 0x20 then
    ['\\', 'u', '0', '0', toHexDigit (c.toNat / 16), toHexDigit (c.toNat % 16)]
  else [c]

/-- Escape a string's characters. -/
def escape : List Char → List Char
  | [] => []
  | c :: cs => escChar c ++ escape cs

/-- Decimal digits of `n`, most significant first, prepended to `acc`.
Fuel-based so that the kernel can evaluate it; `printNat` supplies
`n + 1`, which always suffices. -/
def printNatAux : Nat → Nat → List Char → List Char
  | 0, _, acc => acc
  | fuel + 1, n, acc =>
      if n < 10 then Char.ofNat (48 + n) :: acc
      else printNatAux fuel (n / 10) (Char.ofNat (48 + n % 10) :: acc)

/-- Decimal representation of a natural number. -/
def printNat (n : Nat) : List Char := printNatAux (n + 1) n []

/-- Decimal representation of an integer, as Python prints ints. -/
def printInt (n : Int) : List Char :=
  if n < 0 then '-' :: printNat (-n).toNat else printNat n.toNat

/-- One `"key": qty` line of `json.dump(..., indent=2)` output, with its
leading newline and two-space indent. -/
def dumpEntry (k : String) (v : Int) : List Char :=
  '\n' :: ' ' :: ' ' :: '"' :: (escape k.data ++ '"' :: ':' :: ' ' :: printInt v)

/-- The members of the dumped object, comma-separated, with the closing
newline and brace after the last one. -/
def dumpEntries : Ledger → List Char
  | [] => []
  | [(k, v)] => dumpEntry k v ++ ['\n', '\x7d']
  | (k, v) :: rest => dumpEntry k v ++ ',' :: dumpEntries rest

/-- Source `save_data` (lines 95-103): the exact text `json.dump(stock_data, f,
indent=2)` writes.  The `OSError` path (propagated after logging) concerns
the file system, not the serialized ledger, and is outside this model. -/
def save_data (s : Ledger) : String :=
  match s with
  | [] => String.mk ['\x7b', '\x7d']
  | _ => String.mk ('\x7b' :: dumpEntries s)

/-! ### Claims about persistence -/

/-- C7: load_data is total — it returns a ledger for every file state
rather than raising — and yields the empty ledger when the file is
missing, when the text is not valid JSON, and when the parsed top-level
value is not an object. -/
theorem load_data_never_fails :
    load_data none = [] ∧
    (∀ t, parse_json t = none → load_data (some t) = []) ∧
    (∀ t j, parse_json t = some j → j.isObj = false → load_data (some t) = []) := by
  refine ⟨rfl, ?_, ?_⟩
  · intro t h
    simp [load_data, h]
  · intro t j h hobj
    simp only [load_data, h]
    cases j <;> simp_all [Json.isObj]

theorem load_data_never_fails_witness :
    load_data none = [] ∧
    load_data (some "nope") = [] ∧
    load_data (some "3") = [] :=
  ⟨load_data_never_fails.1,
   load_data_never_fails.2.1 "nope" (by rfl),
   load_data_never_fails.2.2 "3" (.jint 3) (by rfl) (by rfl)⟩

/-- C8 counterexample: Python's json module rejects the text
with the unquoted key 2 — object keys must be quoted strings — so
json.load raises JSONDecodeError, load_data resets the ledger to empty,
and the result is not the claimed single-entry ledger. -/
theorem load_mixed_file_cex :
    load_data (some "\x7b\"a\": 1, \"b\": \"x\", 2: 3\x7d") = [] ∧
    load_data (some "\x7b\"a\": 1, \"b\": \"x\", 2: 3\x7d") ≠ [("a", 1)] := by
  constructor
  · rfl
  · decide

/-- C8 amended: on the file text with the non-string key 2 the whole text
is malformed JSON, so load_data yields the empty ledger (the line-75
skip branch for non-string keys is unreachable through json.load); with
that pair dropped, the non-integer-coercible value "x" alone is skipped
and exactly a = 1 is kept. -/
theorem load_mixed_file_amended :
    load_data (some "\x7b\"a\": 1, \"b\": \"x\", 2: 3\x7d") = [] ∧
    load_data (some "\x7b\"a\": 1, \"b\": \"x\"\x7d") = [("a", 1)] := by
  constructor <;> rfl

/-- C3 counterexample: add_item accepts qty = 0 and creates a
zero-quantity entry, and load_data accepts zero and negative quantities
from the file, so successful operations do not always leave only
strictly positive quantities. -/
theorem stock_invariant_cex :
    (add_item "a" 0 []).1 = none ∧
    ¬ (∀ p ∈ (add_item "a" 0 []).2, 0 < p.2) ∧
    ¬ (∀ p ∈ load_data (some "\x7b\"a\": 0\x7d"), 0 < p.2) ∧
    ("a", (-5 : Int)) ∈ load_data (some "\x7b\"a\": -5\x7d") := by
  decide

/-- The kept entries of the cleaning loop are strictly positive whenever
every value int() accepts coerces to a strictly positive integer. -/
theorem cleanLoop_pos : ∀ (pairs : List (String × Json)) (acc : Ledger),
    (∀ k v n, (k, v) ∈ pairs → coerceInt v = some n → 0 < n) →
    (∀ p ∈ acc, 0 < p.2) →
    ∀ p ∈ cleanLoop acc pairs, 0 < p.2 := by
  intro pairs
  induction pairs with
  | nil =>
      intro acc _ hacc
      simpa [cleanLoop] using hacc
  | cons kv rest ih =>
      intro acc hpairs hacc
      obtain ⟨k, v⟩ := kv
      cases hc : coerceInt v with
      | none =>
          simp only [cleanLoop, hc]
          exact ih acc
            (fun k' v' n h hcc => hpairs k' v' n (List.mem_cons_of_mem _ h) hcc)
            hacc
      | some n =>
          simp only [cleanLoop, hc]
          refine ih (setKey acc k n)
            (fun k' v' n' h hcc => hpairs k' v' n' (List.mem_cons_of_mem _ h) hcc)
            ?_
          intro p hp
          rcases mem_setKey acc k n p hp with h1 | h1
          · rw [h1]
            exact hpairs k v n (List.mem_cons_self _ _) hc
          · exact hacc p h1

/-- C3 amended: add_item preserves non-negativity of all quantities;
with strictly positive qty it also preserves strict positivity;
remove_item preserves strict positivity; and load_data yields strictly
positive quantities provided every value of the parsed object that int()
accepts is strictly positive.  (Unrestricted, the invariant fails:
add_item with qty = 0 can create a zero entry and load_data enforces no
sign at all — see the counterexample.) -/
theorem stock_invariant_amended (s : Ledger) (item : String) (qty : Int) :
    ((∀ p ∈ s, 0 ≤ p.2) → (add_item item qty s).1 = none →
      ∀ p ∈ (add_item item qty s).2, 0 ≤ p.2) ∧
    ((∀ p ∈ s, 0 < p.2) → 0 < qty → (add_item item qty s).1 = none →
      ∀ p ∈ (add_item item qty s).2, 0 < p.2) ∧
    ((∀ p ∈ s, 0 < p.2) → (remove_item item qty s).1 = none →
      ∀ p ∈ (remove_item item qty s).2, 0 < p.2) ∧
    (∀ t pairs, parse_json t = some (.jobj pairs) →
      (∀ k v n, (k, v) ∈ pairs → coerceInt v = some n → 0 < n) →
      ∀ p ∈ load_data (some t), 0 < p.2) := by
  refine ⟨?_, ?_, ?_, ?_⟩
  · intro hs hsucc
    by_cases hI : item = ""
    · simp [add_item, hI] at hsucc
    · by_cases hQ : qty < 0
      · simp [add_item, hI, hQ] at hsucc
      · intro p hp
        simp only [add_item, if_neg hI, if_neg hQ] at hp
        rcases mem_setKey s item _ p hp with h1 | h1
        · have hprev : 0 ≤ (lookup s item).getD 0 := by
            cases hL : lookup s item with
            | none => simp
            | some q => simpa using hs (item, q) (lookup_mem s item q hL)
          have hq : 0 ≤ qty := not_lt.mp hQ
          rw [h1]
          show 0 ≤ (lookup s item).getD 0 + qty
          omega
        · exact hs p h1
  · intro hs hqty hsucc
    by_cases hI : item = ""
    · simp [add_item, hI] at hsucc
    · by_cases hQ : qty < 0
      · simp [add_item, hI, hQ] at hsucc
      · intro p hp
        simp only [add_item, if_neg hI, if_neg hQ] at hp
        rcases mem_setKey s item _ p hp with h1 | h1
        · have hprev : 0 ≤ (lookup s item).getD 0 := by
            cases hL : lookup s item with
            | none => simp
            | some q => simpa using le_of_lt (hs (item, q) (lookup_mem s item q hL))
          rw [h1]
          show 0 < (lookup s item).getD 0 + qty
          omega
        · exact hs p h1
  · intro hs hsucc
    by_cases hI : item = ""
    · simp [remove_item, hI] at hsucc
    · by_cases hQ : qty ≤ 0
      · simp [remove_item, hI, hQ] at hsucc
      · cases hL : lookup s item with
        | none => simp [remove_item, hI, hQ, hL] at hsucc
        | some q =>
            by_cases hlt : q < qty
            · simp [remove_item, hI, hQ, hL, hlt] at hsucc
            · intro p hp
              simp only [remove_item, if_neg hI, if_neg hQ, hL] at hp
              rw [if_neg hlt, lookup_setKey_self] at hp
              simp only [Option.getD_some] at hp
              by_cases hz : q - qty = 0
              · rw [if_pos hz] at hp
                try dsimp only at hp
                rcases mem_setKey s item (q - qty) p
                    (mem_eraseKey _ item p hp) with h1 | h1
                · exfalso
                  apply not_mem_keys_eraseKey (setKey s item (q - qty)) item
                  have := List.mem_map_of_mem Prod.fst hp
                  rw [h1] at this
                  exact this
                · exact hs p h1
              · rw [if_neg hz] at hp
                try dsimp only at hp
                rcases mem_setKey s item (q - qty) p hp with h1 | h1
                · rw [h1]
                  show 0 < q - qty
                  omega
                · exact hs p h1
  · intro t pairs hparse hpos p hp
    simp only [load_data, hparse] at hp
    exact cleanLoop_pos pairs [] hpos (by simp) p hp

theorem stock_invariant_amended_witness :
    0 ≤ ((lookup (add_item "b" 0 [("a", 2)]).2 "b").getD 0) ∧
    0 < ((lookup (add_item "b" 3 [("a", 2)]).2 "b").getD 0) ∧
    0 < ((lookup (remove_item "a" 1 [("a", 3)]).2 "a").getD 0) ∧
    0 < ((lookup (load_data (some "\x7b\"a\": 4\x7d")) "a").getD 0) := by
  refine ⟨?_, ?_, ?_, ?_⟩
  · have h := (stock_invariant_amended [("a", 2)] "b" 0).1 (by decide) (by rfl)
    exact h ("b", 0) (by decide)
  · have h := (stock_invariant_amended [("a", 2)] "b" 3).2.1 (by decide)
      (by decide) (by rfl)
    exact h ("b", 3) (by decide)
  · have h := (stock_invariant_amended [("a", 3)] "a" 1).2.2.1 (by decide)
      (by rfl)
    exact h ("a", 2) (by decide)
  · have h := (stock_invariant_amended [] "a" 1).2.2.2
      "\x7b\"a\": 4\x7d" [("a", Json.jint 4)] (by rfl) ?_
    · exact h ("a", 4) (by decide)
    · intro k v n hkv hc
      simp only [List.mem_singleton, Prod.mk.injEq] at hkv
      obtain ⟨rfl, rfl⟩ := hkv
      simp only [coerceInt, Option.some.injEq] at hc
      omega

/-! ### Round-trip lemmas: characters and whitespace -/

theorem skipWs_cons_of_ws (c : Char) (cs : List Char) (h : isWsChar c = true) :
    skipWs (c :: cs) = skipWs cs := by
  simp [skipWs, h]

theorem skipWs_cons_of_not_ws (c : Char) (cs : List Char) (h : isWsChar c = false) :
    skipWs (c :: cs) = c :: cs := by
  simp [skipWs, h]

theorem isWsChar_eq_false_of_isDigit (c : Char) (h : c.isDigit = true) :
    isWsChar c = false := by
  by_cases h1 : c = ' '
  · exact absurd (h1 ▸ h) (by decide)
  by_cases h2 : c = '\t'
  · exact absurd (h2 ▸ h) (by decide)
  by_cases h3 : c = '\n'
  · exact absurd (h3 ▸ h) (by decide)
  by_cases h4 : c = '\r'
  · exact absurd (h4 ▸ h) (by decide)
  simp [isWsChar, h1, h2, h3, h4]

theorem digit_not_special (c : Char) (h : c.isDigit = true) :
    c ≠ '\x7b' ∧ c ≠ '[' ∧ c ≠ '"' ∧ c ≠ 't' ∧ c ≠ 'f' ∧ c ≠ 'n' ∧ c ≠ '-' := by
  refine ⟨?_, ?_, ?_, ?_, ?_, ?_, ?_⟩ <;>
    (rintro rfl; exact absurd h (by decide))

theorem toNat_ofNat_digit (d : Nat) (h : d < 10) :
    (Char.ofNat (48 + d)).toNat = 48 + d := by
  interval_cases d <;> decide

theorem isDigit_ofNat_digit (d : Nat) (h : d < 10) :
    (Char.ofNat (48 + d)).isDigit = true := by
  interval_cases d <;> decide

theorem fromHex_toHex (d : Nat) (h : d < 16) :
    fromHexDigit (toHexDigit d) = some d := by
  interval_cases d <;> decide

/-! ### Round-trip lemmas: number printing and scanning -/

theorem printNatAux_append (fuel : Nat) : ∀ (n : Nat) (acc : List Char),
    printNatAux fuel n acc = printNatAux fuel n [] ++ acc := by
  induction fuel with
  | zero => intro n acc; simp [printNatAux]
  | succ f ih =>
      intro n acc
      by_cases h : n < 10
      · simp [printNatAux, h]
      · simp only [printNatAux, if_neg h]
        rw [ih (n / 10) (Char.ofNat (48 + n % 10) :: acc),
          ih (n / 10) [Char.ofNat (48 + n % 10)]]
        simp

theorem printNatAux_ne_nil (fuel n : Nat) (h : 0 < fuel) :
    printNatAux fuel n [] ≠ [] := by
  cases fuel with
  | zero => omega
  | succ f =>
      by_cases h10 : n < 10
      · simp [printNatAux, h10]
      · simp only [printNatAux, if_neg h10]
        rw [printNatAux_append]
        simp

theorem isDigit_mem_printNatAux (fuel : Nat) : ∀ (n : Nat), n < fuel →
    ∀ c ∈ printNatAux fuel n [], c.isDigit = true := by
  induction fuel with
  | zero => intro n h; omega
  | succ f ih =>
      intro n hn c hc
      by_cases h10 : n < 10
      · simp only [printNatAux, if_pos h10, List.mem_singleton] at hc
        exact hc ▸ isDigit_ofNat_digit n h10
      · simp only [printNatAux, if_neg h10] at hc
        rw [printNatAux_append] at hc
        rcases List.mem_append.mp hc with h1 | h1
        · have hdiv : n / 10 < f := by
            have := Nat.div_lt_self (by omega : 0 < n) (by omega : 1 < 10)
            omega
          exact ih (n / 10) hdiv c h1
        · have : c = Char.ofNat (48 + n % 10) := by simpa using h1
          exact this ▸ isDigit_ofNat_digit (n % 10) (Nat.mod_lt n (by omega))

theorem head_printNatAux_ne_zero (fuel : Nat) : ∀ (n : Nat), n < fuel → n ≠ 0 →
    ∀ c cs, printNatAux fuel n [] = c :: cs → c ≠ '0' := by
  induction fuel with
  | zero => intro n h; omega
  | succ f ih =>
      intro n hn hz c cs hc
      by_cases h10 : n < 10
      · simp only [printNatAux, if_pos h10] at hc
        injection hc.symm with h1 h2
        subst h1
        intro habs
        interval_cases n
        · exact hz rfl
        all_goals exact absurd habs (by decide)
      · simp only [printNatAux, if_neg h10] at hc
        rw [printNatAux_append] at hc
        have hdiv : n / 10 < f := by
          have := Nat.div_lt_self (by omega : 0 < n) (by omega : 1 < 10)
          omega
        have hdivz : n / 10 ≠ 0 := by
          have := Nat.div_pos (by omega : 10 ≤ n) (by omega : 0 < 10)
          omega
        cases hh : printNatAux f (n / 10) [] with
        | nil => exact absurd hh (printNatAux_ne_nil f (n / 10) (by
            cases f with
            | zero => omega
            | succ f2 => omega))
        | cons c0 cs0 =>
            rw [hh] at hc
            simp only [List.cons_append, List.cons.injEq] at hc
            exact hc.1 ▸ ih (n / 10) hdiv hdivz c0 cs0 hh

theorem foldl_printNatAux (fuel : Nat) : ∀ (n : Nat), n < fuel → ∀ (a : Nat),
    (printNatAux fuel n []).foldl (fun a c => 10 * a + (c.toNat - 48)) a
      = a * 10 ^ (printNatAux fuel n []).length + n := by
  induction fuel with
  | zero => intro n h; omega
  | succ f ih =>
      intro n hn a
      by_cases h10 : n < 10
      · simp only [printNatAux, if_pos h10, List.foldl_cons, List.foldl_nil,
          List.length_singleton, pow_one, toNat_ofNat_digit n h10]
        omega
      · simp only [printNatAux, if_neg h10]
        rw [printNatAux_append]
        have hdiv : n / 10 < f := by
          have := Nat.div_lt_self (by omega : 0 < n) (by omega : 1 < 10)
          omega
        rw [List.foldl_append, List.length_append, List.length_singleton,
          List.foldl_cons, List.foldl_nil, ih (n / 10) hdiv a,
          toNat_ofNat_digit (n % 10) (Nat.mod_lt n (by omega)), pow_succ]
        have hmod := Nat.div_add_mod n 10
        have h48 : 48 + n % 10 - 48 = n % 10 := by omega
        rw [h48]
        set m := 10 ^ (printNatAux f (n / 10) []).length
        ring_nf
        omega

/-- Heads of a list that is not a run of digits. -/
def headNotDigit (l : List Char) : Prop :=
  ∀ c cs, l = c :: cs → c.isDigit = false

theorem scanDigits_append : ∀ (L : List Char) (a : Nat) (rest : List Char),
    (∀ c ∈ L, c.isDigit = true) → headNotDigit rest →
    scanDigits a (L ++ rest) = (L.foldl (fun a c => 10 * a + (c.toNat - 48)) a, rest) := by
  intro L
  induction L with
  | nil =>
      intro a rest _ hrest
      cases rest with
      | nil => rfl
      | cons c cs => simp [scanDigits, hrest c cs rfl]
  | cons c L2 ih =>
      intro a rest hL hrest
      have hc : c.isDigit = true := hL c (List.mem_cons_self _ _)
      simp only [List.cons_append, scanDigits, hc, if_true, List.foldl_cons]
      exact ih _ rest (fun x hx => hL x (List.mem_cons_of_mem _ hx)) hrest

theorem parseNum_printNat (n : Nat) (rest : List Char) (hrest : headNotDigit rest) :
    parseNum (printNat n ++ rest) = some (n, rest) := by
  by_cases hz : n = 0
  · subst hz
    cases rest with
    | nil => rfl
    | cons c cs => rfl
  · have hlt : n < n + 1 := Nat.lt_succ_self n
    cases hh : printNat n with
    | nil => exact absurd hh (printNatAux_ne_nil (n + 1) n (Nat.succ_pos n))
    | cons c cs =>
        unfold printNat at hh
        have hcd : c.isDigit = true :=
          isDigit_mem_printNatAux (n + 1) n hlt c (by rw [hh]; exact List.mem_cons_self _ _)
        have hcz : c ≠ '0' := head_printNatAux_ne_zero (n + 1) n hlt hz c cs hh
        have hcs : ∀ x ∈ cs, x.isDigit = true := fun x hx =>
          isDigit_mem_printNatAux (n + 1) n hlt x (by rw [hh]; exact List.mem_cons_of_mem _ hx)
        have hc0 : (decide (c = '0')) = false := by simp [hcz]
        simp only [hh, List.cons_append, parseNum, hcz, if_false, hcd, if_true, reduceIte]
        rw [scanDigits_append cs (c.toNat - 48) rest hcs hrest]
        have hfold := foldl_printNatAux (n + 1) n hlt 0
        rw [hh] at hfold
        simp only [List.foldl_cons, Nat.mul_zero, Nat.zero_add] at hfold
        rw [hfold]
        simp

theorem parseIntLit_printInt (v : Int) (rest : List Char) (hrest : headNotDigit rest) :
    parseIntLit (printInt v ++ rest) = some (v, rest) := by
  by_cases hv : v < 0
  · have hp : printInt v = '-' :: printNat (-v).toNat := by
      simp [printInt, hv]
    rw [hp]
    simp only [List.cons_append, parseIntLit, reduceIte]
    rw [parseNum_printNat (-v).toNat rest hrest]
    simp only [Option.map_some']
    have : ((-v).toNat : Int) = -v := Int.toNat_of_nonneg (by omega)
    rw [this]
    simp
  · have hp : printInt v = printNat v.toNat := by
      simp [printInt, hv]
    rw [hp]
    cases hh : printNat v.toNat with
    | nil => exact absurd hh (printNatAux_ne_nil (v.toNat + 1) v.toNat (Nat.succ_pos _))
    | cons c cs =>
        have hcd : c.isDigit = true := by
          unfold printNat at hh
          exact isDigit_mem_printNatAux (v.toNat + 1) v.toNat (Nat.lt_succ_self _) c
            (by rw [hh]; exact List.mem_cons_self _ _)
        have hdash : c ≠ '-' := (digit_not_special c hcd).2.2.2.2.2.2
        simp only [List.cons_append, parseIntLit, hdash, if_false, reduceIte]
        rw [← List.cons_append, ← hh, parseNum_printNat v.toNat rest hrest]
        simp only [Option.map_some']
        rw [Int.toNat_of_nonneg (by omega)]

/-! ### Round-trip lemmas: string escaping -/

theorem strLoop_escChar (c : Char) (rest : List Char) :
    strLoop (escChar c ++ rest) = consCh c (strLoop rest) := by
  by_cases h1 : c = '\\'
  · subst h1
    rw [show escChar '\\' = ['\\', '\\'] from by decide, strLoop.eq_def]
    simp
  by_cases h2 : c = '"'
  · subst h2
    rw [show escChar '"' = ['\\', '"'] from by decide, strLoop.eq_def]
    simp
  by_cases h3 : c = '\x08'
  · subst h3
    rw [show escChar '\x08' = ['\\', 'b'] from by decide, strLoop.eq_def]
    simp
  by_cases h4 : c = '\x0c'
  · subst h4
    rw [show escChar '\x0c' = ['\\', 'f'] from by decide, strLoop.eq_def]
    simp
  by_cases h5 : c = '\n'
  · subst h5
    rw [show escChar '\n' = ['\\', 'n'] from by decide, strLoop.eq_def]
    simp
  by_cases h6 : c = '\r'
  · subst h6
    rw [show escChar '\r' = ['\\', 'r'] from by decide, strLoop.eq_def]
    simp
  by_cases h7 : c = '\t'
  · subst h7
    rw [show escChar '\t' = ['\\', 't'] from by decide, strLoop.eq_def]
    simp
  by_cases h8 : c.toNat < 0x20
  · have hesc : escChar c =
        ['\\', 'u', '0', '0', toHexDigit (c.toNat / 16), toHexDigit (c.toNat % 16)] := by
      simp [escChar, h1, h2, h3, h4, h5, h6, h7, h8]
    rw [hesc]
    have hx : fromHexDigit (toHexDigit (c.toNat / 16)) = some (c.toNat / 16) :=
      fromHex_toHex _ (by omega)
    have hy : fromHexDigit (toHexDigit (c.toNat % 16)) = some (c.toNat % 16) :=
      fromHex_toHex _ (Nat.mod_lt _ (by omega))
    have h0 : fromHexDigit '0' = some 0 := by decide
    have hlt : c.toNat < 55296 := by omega
    have hn2 : c.toNat / 16 * 16 + c.toNat % 16 = c.toNat := by omega
    show strLoop ('\\' :: 'u' :: '0' :: '0' :: toHexDigit (c.toNat / 16) ::
      toHexDigit (c.toNat % 16) :: rest) = consCh c (strLoop rest)
    rw [strLoop.eq_def]
    simp [hx, hy, h0, hn2, hlt, Char.ofNat_toNat]
  · have hesc : escChar c = [c] := by
      simp [escChar, h1, h2, h3, h4, h5, h6, h7, h8]
    rw [hesc]
    show strLoop (c :: rest) = consCh c (strLoop rest)
    rw [strLoop.eq_def]
    simp [h1, h2, h8]

theorem strLoop_escape : ∀ (L R : List Char),
    strLoop (escape L ++ '"' :: R) = some (L, R) := by
  intro L
  induction L with
  | nil =>
      intro R
      show strLoop ('"' :: R) = some ([], R)
      rw [strLoop.eq_def]
      simp
  | cons c L2 ih =>
      intro R
      show strLoop ((escChar c ++ escape L2) ++ '"' :: R) = some (c :: L2, R)
      rw [List.append_assoc, strLoop_escChar, ih]
      rfl

/-! ### Round-trip lemmas: values -/

theorem printInt_ne_nil (v : Int) : printInt v ≠ [] := by
  by_cases hv : v < 0
  · simp [printInt, hv]
  · simp only [printInt, if_neg hv]
    exact printNatAux_ne_nil _ _ (Nat.succ_pos _)

theorem printInt_head_facts (v : Int) :
    ∃ c tl, printInt v = c :: tl ∧ isWsChar c = false ∧
      c ≠ '\x7b' ∧ c ≠ '[' ∧ c ≠ '"' ∧ c ≠ 't' ∧ c ≠ 'f' ∧ c ≠ 'n' := by
  by_cases hv : v < 0
  · refine ⟨'-', printNat (-v).toNat, by simp [printInt, hv], ?_⟩
    refine ⟨by decide, by decide, by decide, by decide, by decide, by decide, by decide⟩
  · have hp : printInt v = printNat v.toNat := by simp [printInt, hv]
    cases hh : printNat v.toNat with
    | nil => exact absurd hh (printNatAux_ne_nil _ _ (Nat.succ_pos _))
    | cons c tl =>
        have hcd : c.isDigit = true := by
          unfold printNat at hh
          exact isDigit_mem_printNatAux (v.toNat + 1) v.toNat (Nat.lt_succ_self _) c
            (by rw [hh]; exact List.mem_cons_self _ _)
        obtain ⟨hb1, hb2, hb3, hb4, hb5, hb6, _⟩ := digit_not_special c hcd
        exact ⟨c, tl, by rw [hp, hh], isWsChar_eq_false_of_isDigit c hcd,
          hb1, hb2, hb3, hb4, hb5, hb6⟩

theorem skipWs_printInt_append (v : Int) (X : List Char) :
    skipWs (printInt v ++ X) = printInt v ++ X := by
  obtain ⟨c, tl, hh, hnws, _⟩ := printInt_head_facts v
  rw [hh, List.cons_append]
  exact skipWs_cons_of_not_ws c _ hnws

theorem parseValue_printInt (fuel : Nat) (v : Int) (rest cs0 : List Char)
    (hskip : skipWs cs0 = printInt v ++ rest)
    (hrest : headNotDigit rest) :
    parseValue (fuel + 1) cs0 = some (.jint v, rest) := by
  obtain ⟨c, tl, hh, _, hb1, hb2, hb3, hb4, hb5, hb6⟩ := printInt_head_facts v
  rw [parseValue.eq_def]
  dsimp only
  rw [hskip, hh, List.cons_append]
  dsimp only
  rw [if_neg hb1, if_neg hb2, if_neg hb3, if_neg hb4, if_neg hb5, if_neg hb6]
  rw [← List.cons_append, ← hh, parseIntLit_printInt v rest hrest]
  rfl

theorem string_mk_data (s : String) : String.mk s.data = s := rfl

theorem skipWs_dumpEntry (k : String) (v : Int) (X : List Char) :
    skipWs (dumpEntry k v ++ X) =
      '"' :: (escape k.data ++ '"' :: ':' :: ' ' :: (printInt v ++ X)) := by
  show skipWs ('\n' :: ' ' :: ' ' :: '"' ::
    ((escape k.data ++ '"' :: ':' :: ' ' :: printInt v) ++ X)) = _
  rw [skipWs_cons_of_ws _ _ (by decide), skipWs_cons_of_ws _ _ (by decide),
    skipWs_cons_of_ws _ _ (by decide), skipWs_cons_of_not_ws _ _ (by decide)]
  simp

theorem parseMembers_dumpEntries : ∀ (l : Ledger) (g : Nat), l ≠ [] →
    2 * l.length ≤ g →
    parseMembers (g + 1) (skipWs (dumpEntries l)) =
      some (l.map (fun p => (p.1, Json.jint p.2)), []) := by
  intro l
  induction l with
  | nil => intro g h _; exact absurd rfl h
  | cons kv rest ih =>
      intro g _ hg
      obtain ⟨k, v⟩ := kv
      cases rest with
      | nil =>
          simp only [List.length_cons, List.length_nil] at hg
          obtain ⟨g1, rfl⟩ : ∃ g1, g = g1 + 1 := ⟨g - 1, by omega⟩
          rw [show dumpEntries [(k, v)] = dumpEntry k v ++ ['\n', '\x7d'] from rfl]
          rw [skipWs_dumpEntry]
          rw [parseMembers.eq_def]
          dsimp only
          rw [if_pos rfl]
          rw [strLoop_escape]
          dsimp only
          rw [skipWs_cons_of_not_ws _ _ (by decide)]
          dsimp only
          rw [if_pos rfl]
          have hskip1 : skipWs (' ' :: (printInt v ++ ['\n', '\x7d'])) =
              printInt v ++ ['\n', '\x7d'] := by
            rw [skipWs_cons_of_ws _ _ (by decide)]
            exact skipWs_printInt_append v _
          have hrest1 : headNotDigit ['\n', '\x7d'] := by
            intro c cs hcs
            injection hcs with h1 _
            rw [← h1]
            decide
          rw [parseValue_printInt g1 v ['\n', '\x7d'] _ hskip1 hrest1]
          dsimp only
          rw [show skipWs ['\n', '\x7d'] = ['\x7d'] from by decide]
          dsimp only
          rw [if_neg (by decide), if_pos rfl]
          rw [string_mk_data]
          rfl
      | cons kv2 rest2 =>
          simp only [List.length_cons] at hg
          obtain ⟨g1, rfl⟩ : ∃ g1, g = g1 + 1 := ⟨g - 1, by omega⟩
          rw [show dumpEntries ((k, v) :: kv2 :: rest2) =
            dumpEntry k v ++ ',' :: dumpEntries (kv2 :: rest2) from rfl]
          rw [skipWs_dumpEntry]
          rw [parseMembers.eq_def]
          dsimp only
          rw [if_pos rfl]
          rw [strLoop_escape]
          dsimp only
          rw [skipWs_cons_of_not_ws _ _ (by decide)]
          dsimp only
          rw [if_pos rfl]
          have hskip1 : skipWs (' ' :: (printInt v ++ ',' :: dumpEntries (kv2 :: rest2))) =
              printInt v ++ ',' :: dumpEntries (kv2 :: rest2) := by
            rw [skipWs_cons_of_ws _ _ (by decide)]
            exact skipWs_printInt_append v _
          have hrest1 : headNotDigit (',' :: dumpEntries (kv2 :: rest2)) := by
            intro c cs hcs
            injection hcs with h1 _
            rw [← h1]
            decide
          rw [parseValue_printInt g1 v (',' :: dumpEntries (kv2 :: rest2)) _ hskip1 hrest1]
          dsimp only
          rw [skipWs_cons_of_not_ws _ _ (by decide)]
          dsimp only
          rw [if_pos rfl]
          rw [ih g1 (by simp) (by simp only [List.length_cons]; omega)]
          rw [string_mk_data]
          rfl

theorem dumpEntry_length (k : String) (v : Int) : 8 ≤ (dumpEntry k v).length := by
  have hp : 1 ≤ (printInt v).length :=
    List.length_pos.mpr (printInt_ne_nil v)
  simp only [dumpEntry, List.length_cons, List.length_append]
  omega

theorem dumpEntries_length : ∀ (l : Ledger), l ≠ [] →
    2 * l.length + 1 ≤ (dumpEntries l).length := by
  intro l
  induction l with
  | nil => intro h; exact absurd rfl h
  | cons kv rest ih =>
      intro _
      obtain ⟨k, v⟩ := kv
      cases rest with
      | nil =>
          have := dumpEntry_length k v
          simp only [dumpEntries, List.length_append, List.length_cons,
            List.length_nil, List.length_singleton]
          omega
      | cons kv2 rest2 =>
          have h1 := dumpEntry_length k v
          have h2 := ih (by simp)
          rw [show dumpEntries ((k, v) :: kv2 :: rest2) =
            dumpEntry k v ++ ',' :: dumpEntries (kv2 :: rest2) from rfl]
          simp only [List.length_append, List.length_cons] at h2 ⊢
          omega

theorem parseValue_obj (g : Nat) (cs0 : List Char) (l : Ledger) (hne : l ≠ [])
    (hskip : skipWs cs0 = '\x7b' :: dumpEntries l)
    (hg : 2 * l.length ≤ g) :
    parseValue (g + 2) cs0 =
      some (.jobj (l.map (fun p => (p.1, Json.jint p.2))), []) := by
  obtain ⟨k, v, rest, rfl⟩ : ∃ k v rest, l = (k, v) :: rest := by
    cases l with
    | nil => exact absurd rfl hne
    | cons kv r => exact ⟨kv.1, kv.2, r, by simp⟩
  obtain ⟨Y, hY⟩ : ∃ Y, dumpEntries ((k, v) :: rest) = dumpEntry k v ++ Y := by
    cases rest with
    | nil => exact ⟨_, rfl⟩
    | cons kv2 rest2 => exact ⟨_, rfl⟩
  rw [show g + 2 = (g + 1) + 1 from rfl, parseValue.eq_def]
  dsimp only
  rw [hskip]
  dsimp only
  rw [if_pos rfl]
  rw [hY, skipWs_dumpEntry]
  dsimp only
  rw [if_neg (by decide)]
  rw [← skipWs_dumpEntry, ← hY, parseMembers_dumpEntries ((k, v) :: rest) g (by simp) hg]
  rfl

theorem parse_save_data (l : Ledger) (hne : l ≠ []) :
    parse_json (save_data l) =
      some (.jobj (l.map (fun p => (p.1, Json.jint p.2)))) := by
  have hsd : save_data l = String.mk ('\x7b' :: dumpEntries l) := by
    cases l with
    | nil => exact absurd rfl hne
    | cons a b => rfl
  rw [hsd]
  unfold parse_json
  have hlen : (String.mk ('\x7b' :: dumpEntries l)).length =
      (dumpEntries l).length + 1 := by
    simp [String.length]
  rw [show (String.mk ('\x7b' :: dumpEntries l)).data =
    '\x7b' :: dumpEntries l from rfl, hlen]
  have hbound := dumpEntries_length l hne
  obtain ⟨m, hm⟩ : ∃ m, (dumpEntries l).length = m + 1 :=
    ⟨(dumpEntries l).length - 1, by omega⟩
  rw [hm] at hbound
  rw [hm, show m + 1 + 1 + 1 = (m + 1) + 2 from by omega]
  rw [parseValue_obj (m + 1) _ l hne
    (skipWs_cons_of_not_ws _ _ (by decide)) (by omega)]
  rfl

theorem setKey_append (acc : Ledger) (k : String) (v : Int)
    (h : k ∉ acc.map Prod.fst) : setKey acc k v = acc ++ [(k, v)] := by
  induction acc with
  | nil => rfl
  | cons p rest ih =>
      obtain ⟨k0, v0⟩ := p
      simp only [List.map_cons, List.mem_cons, not_or] at h
      simp only [setKey, if_neg (Ne.symm h.1), List.cons_append]
      rw [ih h.2]

theorem cleanLoop_jint : ∀ (l : Ledger) (acc : Ledger),
    (l.map Prod.fst).Nodup →
    (∀ x, x ∈ l.map Prod.fst → x ∉ acc.map Prod.fst) →
    cleanLoop acc (l.map (fun p => (p.1, Json.jint p.2))) = acc ++ l := by
  intro l
  induction l with
  | nil => intro acc _ _; simp [cleanLoop]
  | cons kv rest ih =>
      intro acc hnodup hdisj
      obtain ⟨k, v⟩ := kv
      simp only [List.map_cons, cleanLoop, coerceInt]
      rw [setKey_append acc k v (hdisj k (by simp))]
      simp only [List.map_cons, List.nodup_cons] at hnodup
      rw [ih (acc ++ [(k, v)]) hnodup.2 ?_]
      · simp
      · intro x hx
        simp only [List.map_append, List.mem_append, List.map_cons, List.map_nil,
          List.mem_singleton, not_or]
        exact ⟨hdisj x (List.mem_cons_of_mem _ hx), by
          intro he
          exact hnodup.1 (he ▸ hx)⟩

/-- C6: save_data followed by load_data reproduces the ledger exactly, for
every ledger (unique keys, as a dict has) whose quantities are all
non-negative. -/
theorem save_load_roundtrip (l : Ledger) (hkeys : (l.map Prod.fst).Nodup)
    (_hqty : ∀ p ∈ l, 0 ≤ p.2) :
    load_data (some (save_data l)) = l := by
  cases hl : l with
  | nil => rfl
  | cons kv rest =>
      rw [← hl]
      have hne : l ≠ [] := by rw [hl]; simp
      simp only [load_data, parse_save_data l hne]
      rw [cleanLoop_jint l [] hkeys (by simp)]
      simp

theorem save_load_roundtrip_witness :
    load_data (some (save_data [("apple", 7), ("banana", 12)])) =
      [("apple", 7), ("banana", 12)] :=
  save_load_roundtrip [("apple", 7), ("banana", 12)] (by decide) (by decide)
